import Mathlib

/-!
# LogisTech warehouse core: a shallow embedding

This file embeds the algorithmic core of the LogisTech warehouse system
(`logistech/models.py`, `logistech/algorithms.py`, `logistech/controller.py`)
in Lean and proves the specified properties about it.

Modelling conventions:
* Python floats are modelled by the rationals ℚ.
* Python object mutation is modelled by explicit state passing: the controller
  state (bin inventory, conveyor queue, loading stack) is a record threaded
  through the operations that read or write it.
* The external SQL persistence layer is modelled by its observable outcome: a
  boolean `persistOk` parameter says whether the persistence call of the
  current operation succeeds, and the data a query would return is passed
  as an argument.
* Python loops are embedded as recursive helper functions; the two recursions
  whose termination measure is not a structural argument (the backtracking
  search and the binary-search loop) take an explicit fuel argument that is
  always instantiated large enough (the lemmas track the needed bound), so
  that every definition remains executable by kernel reduction.
* Python's stable sorts (`sorted(..., key=..., reverse=True)` and
  `list.sort()` with `__lt__`) are embedded as stable insertion sorts with the
  same observable behaviour.
-/

/-- Item being stored or shipped (class `Package` in `logistech/models.py`).
The `current_bin_id`/`current_truck_id` bookkeeping attributes of the Python
class are never read or written by the core algorithms (only the separate SQL
records are updated), so they are not part of the model. -/
structure Package where
  tracking_id : String
  size : ℚ
  destination : String
  is_fragile : Bool
deriving DecidableEq, Repr

/-- Storage location (class `StorageBin` in `logistech/models.py`). -/
structure StorageBin where
  bin_id : Nat
  capacity : ℚ
  location_code : String
  occupancy : ℚ
deriving DecidableEq, Repr

/-- Default bin used as the (never actually read) fallback of `List.getD`;
indices handed to `getD` are proved in bounds. -/
def dummyBin : StorageBin :=
  { bin_id := 0, capacity := 0, location_code := "", occupancy := 0 }

/-- Method `StorageBin.get_remaining_capacity`. -/
def StorageBin.get_remaining_capacity (b : StorageBin) : ℚ :=
  b.capacity - b.occupancy

/-- Method `StorageBin.occupy_space`: attempts to store a package; mutates
`occupancy` and returns `True` on success, otherwise leaves the bin unchanged
and returns `False`.  The pair is (updated bin, returned boolean). -/
def StorageBin.occupy_space (b : StorageBin) (amount : ℚ) : StorageBin × Bool :=
  if amount ≤ b.get_remaining_capacity then
    ({ b with occupancy := b.occupancy + amount }, true)
  else
    (b, false)

/-- Method `StorageBin.free_space`: frees space when a package is removed,
clamping at zero (`self.occupancy = max(0.0, self.occupancy - amount)`). -/
def StorageBin.free_space (b : StorageBin) (amount : ℚ) : StorageBin :=
  { b with occupancy := max 0 (b.occupancy - amount) }

/-- Total size of a list of packages (`sum(p.size for p in l)`). -/
def sizeSum (l : List Package) : ℚ :=
  (l.map Package.size).sum

/-- Stable insertion of a package into a size-descending-sorted list: `p` goes
in front of the first element whose size is not larger, so packages of equal
size keep their original relative order. -/
def insertPkgDesc (p : Package) : List Package → List Package
  | [] => [p]
  | q :: rest =>
    if q.size ≤ p.size then p :: q :: rest else q :: insertPkgDesc p rest

/-- Stable sort of packages by size, descending: the embedding of
`sorted(packages, key=lambda p: p.size, reverse=True)` in
`find_optimal_shipment`. -/
def sortPackagesDesc : List Package → List Package
  | [] => []
  | p :: rest => insertPkgDesc p (sortPackagesDesc rest)

/-- Inner recursion of `find_optimal_shipment` (`logistech/algorithms.py`):
the `for i in range(index, len(sorted_packages))` loop of `backtrack`.
Instead of an index into `sorted_packages` the embedding passes the remaining
suffix `rem = sorted_packages[index:]` directly; `bt` is the recursive call
`backtrack(i + 1, ...)`, which receives the suffix after the chosen package.
The running best solution (`best_load`, `best_size`), a pair here, is threaded
through instead of being a `nonlocal` variable. -/
def btLoop (bt : List Package → ℚ → List Package → List Package × ℚ → List Package × ℚ)
    (target_capacity : ℚ) (current_load : List Package) (current_size : ℚ) :
    List Package → List Package × ℚ → List Package × ℚ
  | [], best => best
  | p :: rest, best =>
    btLoop bt target_capacity current_load current_size rest
      (if current_size + p.size ≤ target_capacity then
        bt (current_load ++ [p]) (current_size + p.size) rest best
      else best)

/-- Function `backtrack` of `find_optimal_shipment` (`logistech/algorithms.py`).
Base case 1: an exact match is recorded and the call returns at once.
Base case 2: a strictly better running sum is recorded.
Then the loop over the remaining packages runs, pruning branches that would
exceed the target.  The `fuel` argument only drives the recursion; nested
calls always receive a strictly shorter `rem`, so `rem.length + 1` fuel is
enough and the lemmas below carry that bound. -/
def backtrack (fuel : Nat) (target_capacity : ℚ) :
    List Package → ℚ → List Package → List Package × ℚ → List Package × ℚ :=
  match fuel with
  | 0 => fun _ _ _ best => best
  | fuel + 1 => fun current_load current_size rem best =>
    if current_size = target_capacity then
      (current_load, current_size)
    else
      btLoop (backtrack fuel target_capacity) target_capacity current_load current_size rem
        (if best.2 < current_size then (current_load, current_size) else best)

/-- Function `find_optimal_shipment` of `logistech/algorithms.py`: sorts a
fresh copy of the candidates by size descending, runs the backtracking search
from an empty load, and returns the best load found. -/
def find_optimal_shipment (packages : List Package) (target_capacity : ℚ) : List Package :=
  let sorted_packages := sortPackagesDesc packages
  (backtrack (packages.length + 1) target_capacity [] 0 sorted_packages ([], 0)).1

/-- Call-count instrumentation state for the backtracking search: the running
best solution together with the number of calls to `backtrack` made so far and
the call number at which the first exact match (base case 1) fired, if any. -/
structure BTTrace where
  best_load : List Package
  best_size : ℚ
  calls : Nat
  exact_hit : Option Nat
deriving DecidableEq, Repr

/-- Instrumented copy of `btLoop`; identical control flow, threading a
`BTTrace` instead of the bare best pair. -/
def btLoopC (bt : List Package → ℚ → List Package → BTTrace → BTTrace)
    (target_capacity : ℚ) (current_load : List Package) (current_size : ℚ) :
    List Package → BTTrace → BTTrace
  | [], st => st
  | p :: rest, st =>
    btLoopC bt target_capacity current_load current_size rest
      (if current_size + p.size ≤ target_capacity then
        bt (current_load ++ [p]) (current_size + p.size) rest st
      else st)

/-- Instrumented copy of `backtrack`: every call bumps `calls` by one on
entry, and the first call whose running sum equals the target records its own
call number in `exact_hit`.  The returned best/behaviour is exactly that of
`backtrack`. -/
def backtrackC (fuel : Nat) (target_capacity : ℚ) :
    List Package → ℚ → List Package → BTTrace → BTTrace :=
  match fuel with
  | 0 => fun _ _ _ st => st
  | fuel + 1 => fun current_load current_size rem st =>
    let calls := st.calls + 1
    if current_size = target_capacity then
      { best_load := current_load, best_size := current_size, calls := calls,
        exact_hit := some (st.exact_hit.getD calls) }
    else
      btLoopC (backtrackC fuel target_capacity) target_capacity current_load current_size rem
        (if st.best_size < current_size then
          { best_load := current_load, best_size := current_size, calls := calls,
            exact_hit := st.exact_hit }
        else
          { st with calls := calls })

/-- Instrumented run of the whole optimizer, returning the final trace. -/
def find_optimal_shipment_trace (packages : List Package) (target_capacity : ℚ) : BTTrace :=
  backtrackC (packages.length + 1) target_capacity [] 0 (sortPackagesDesc packages)
    { best_load := [], best_size := 0, calls := 0, exact_hit := none }

/-- Stable insertion of a bin into a capacity-ascending-sorted list: `b` goes
in front of the first element of not-smaller capacity, so bins of equal
capacity keep their original relative order. -/
def insertBinAsc (b : StorageBin) : List StorageBin → List StorageBin
  | [] => [b]
  | c :: rest =>
    if b.capacity ≤ c.capacity then b :: c :: rest else c :: insertBinAsc b rest

/-- Stable ascending sort of bins by capacity: the embedding of
`oop_bins.sort()`, which uses `StorageBin.__lt__` (capacity comparison). -/
def sortBinsAsc : List StorageBin → List StorageBin
  | [] => []
  | b :: rest => insertBinAsc b (sortBinsAsc rest)

/-- Method `LogiMaster._load_and_sort_bins` (`logistech/controller.py`): the
bins read from the database (passed here as the query result) are sorted by
capacity.  The SQL-row-to-object conversion is the identity in the model. -/
def load_and_sort_bins (sql_bins : List StorageBin) : List StorageBin :=
  sortBinsAsc sql_bins

/-- Observable identity of a bin apart from its occupancy: used to state that
a sequence of occupancy mutations reorders nothing and changes no capacity. -/
def binKey (b : StorageBin) : Nat × ℚ × String :=
  (b.bin_id, b.capacity, b.location_code)

/-- While-loop of `LogiMaster.find_best_fit_bin`: lower-bound binary search
over the capacity-sorted inventory.  `low`/`high` are Python ints (so `high`
starts at `-1` for an empty inventory) and `(low + high) / 2` is Python's
floor division, which is Lean's `Int` division.  The candidate is remembered
by index rather than by object reference.  The fuel always exceeds the window
size `high + 1 - low`, which shrinks at every iteration. -/
def bsLoop (bins : List StorageBin) (package_size : ℚ) :
    Nat → Int → Int → Option Nat → Option Nat
  | 0, _, _, best_fit => best_fit
  | fuel + 1, low, high, best_fit =>
    if low ≤ high then
      let mid := (low + high) / 2
      let current_bin := bins.getD mid.toNat dummyBin
      if package_size ≤ current_bin.capacity then
        bsLoop bins package_size fuel low (mid - 1) (some mid.toNat)
      else
        bsLoop bins package_size fuel (mid + 1) high best_fit
    else best_fit

/-- Method `LogiMaster.find_best_fit_bin` (`logistech/controller.py`): binary
search for the smallest bin whose capacity is at least the package size, then
a single final free-space check on that candidate.  The method only reads the
inventory; it is returned unchanged alongside the result, mirroring that the
Python method performs no writes. -/
def find_best_fit_bin (bins : List StorageBin) (package_size : ℚ) :
    List StorageBin × Option Nat :=
  match bsLoop bins package_size (bins.length + 1) 0 ((bins.length : Int) - 1) none with
  | some idx =>
    if package_size ≤ (bins.getD idx dummyBin).get_remaining_capacity then
      (bins, some idx)
    else
      (bins, none)
  | none => (bins, none)

/-- Specification-side selector, written after the words of the spec: take the
leftmost unit whose capacity suffices (`leftmostFit`), then return it exactly
when its free space also suffices, and `NoFitFound` (`none`) otherwise. -/
def leftmostFit (package_size : ℚ) : List StorageBin → Option Nat
  | [] => none
  | b :: rest =>
    if package_size ≤ b.capacity then some 0
    else (leftmostFit package_size rest).map (· + 1)

/-- Spec-side contract of the Best-Fit Selector (see `leftmostFit`). -/
def selectorSpec (bins : List StorageBin) (package_size : ℚ) : Option Nat :=
  match leftmostFit package_size bins with
  | none => none
  | some idx =>
    if package_size ≤ (bins.getD idx dummyBin).get_remaining_capacity then some idx
    else none

/-- In-memory state of the `LogiMaster` controller: the sorted bin inventory,
the FIFO conveyor queue (front = head) and the LIFO loading stack (top =
last element, as for a Python list used as a stack). -/
structure LogiState where
  bin_inventory : List StorageBin
  conveyor_queue : List Package
  loading_stack : List String
deriving DecidableEq, Repr

/-- Method `LogiMaster.ingest_package`: appends to the tail of the conveyor
queue.  The `_log_shipment` audit write goes to the external store and catches
its own failures, so it has no effect on the modelled state. -/
def ingest_package (s : LogiState) (package : Package) : LogiState :=
  { s with conveyor_queue := s.conveyor_queue ++ [package] }

/-- Method `LogiMaster.process_next_package` (`logistech/controller.py`).
`persistOk` is the outcome of the `_update_db_assignment` persistence call
(an exception there is the only caught failure).  The Python function returns
`None` on every path - empty queue, successful assignment, no fit, rollback -
so the returned value is modelled as `Option Unit` and is `none` in every
branch.  On failure the occupancy change is undone with `free_space` and the
package is pushed back on the front of the queue; on `NoFitFound` the package
is dropped. -/
def process_next_package (persistOk : Bool) (s : LogiState) : LogiState × Option Unit :=
  match s.conveyor_queue with
  | [] => (s, none)
  | package :: rest =>
    match (find_best_fit_bin s.bin_inventory package.size).2 with
    | some idx =>
      let best_bin := s.bin_inventory.getD idx dummyBin
      let occupied := (best_bin.occupy_space package.size).1
      let bins1 := s.bin_inventory.set idx occupied
      if persistOk then
        ({ bin_inventory := bins1, conveyor_queue := rest,
           loading_stack := s.loading_stack }, none)
      else
        ({ bin_inventory := bins1.set idx (occupied.free_space package.size),
           conveyor_queue := package :: rest,
           loading_stack := s.loading_stack }, none)
    | none => ({ s with conveyor_queue := rest }, none)

/-- Method `LogiMaster.prepare_shipment` (`logistech/controller.py`),
restricted to its memory-visible effect.  The truck row and the candidate
query are external inputs, so the truck capacity and the candidate list are
parameters.  Inside the `try` block the code appends every package of the
optimal load to `self.loading_stack` and only afterwards calls
`session.commit()`; when the commit raises, `session.rollback()` undoes the
database changes only, so the returned stack is the same whether `persistOk`
is true or false.  The boolean result records whether the transaction was
committed (`false` also on the two early returns, where no commit happens). -/
def prepare_shipment (truck_capacity : ℚ) (candidate_packages : List Package)
    (persistOk : Bool) (loading_stack : List String) : List String × Bool :=
  if candidate_packages.isEmpty then
    (loading_stack, false)
  else
    let optimal_load := find_optimal_shipment candidate_packages truck_capacity
    if optimal_load.isEmpty then
      (loading_stack, false)
    else
      (loading_stack ++ optimal_load.map Package.tracking_id, persistOk)

/-- Occupancy mutation on one bin of a catalog, by index: the two mutating
operations a stored catalog is subjected to. -/
inductive BinOp where
  | occupy (idx : Nat) (amount : ℚ)
  | free (idx : Nat) (amount : ℚ)
deriving DecidableEq, Repr

/-- Applies one occupancy mutation to a catalog. -/
def applyBinOp (bins : List StorageBin) : BinOp → List StorageBin
  | .occupy idx amount => bins.set idx ((bins.getD idx dummyBin).occupy_space amount).1
  | .free idx amount => bins.set idx ((bins.getD idx dummyBin).free_space amount)

/-- Applies a finite sequence of occupancy mutations to a catalog. -/
def applyBinOps (bins : List StorageBin) : List BinOp → List StorageBin
  | [] => bins
  | op :: rest => applyBinOps (applyBinOp bins op) rest

/-- Seed catalog of `db/setup.py` (capacities 5, 10, 15, 20, 50, 100, all
empty), already in ascending order; used for concrete witnesses. -/
def seedBins : List StorageBin :=
  [{ bin_id := 101, capacity := 5, location_code := "A01S01", occupancy := 0 },
   { bin_id := 102, capacity := 10, location_code := "A01S02", occupancy := 0 },
   { bin_id := 201, capacity := 15, location_code := "A05S10", occupancy := 0 },
   { bin_id := 202, capacity := 20, location_code := "A05S11", occupancy := 0 },
   { bin_id := 301, capacity := 50, location_code := "B10S05", occupancy := 0 },
   { bin_id := 302, capacity := 100, location_code := "B10S06", occupancy := 0 }]

/-- Concrete packages for witnesses and counterexamples. -/
def pkgOfSize (id_str : String) (sz : ℚ) : Package :=
  { tracking_id := id_str, size := sz, destination := "40004", is_fragile := false }

/-- Candidate set whose sizes 3, 2, 1 admit the exact-sum subset at ceiling 3;
used to count the calls of the backtracking search. -/
def pkgs321 : List Package :=
  [pkgOfSize "X3" 3, pkgOfSize "X2" 2, pkgOfSize "X1" 1]

/-- Single bin of capacity 10 for the ingestion rollback scenario. -/
def binB1 : StorageBin :=
  { bin_id := 1, capacity := 10, location_code := "L1", occupancy := 0 }

/-- Controller state after ingesting packages A (size 3), B (size 4) and
C (size 2) in that order into a catalog holding the single capacity-10 bin. -/
def stateABC : LogiState :=
  ingest_package
    (ingest_package
      (ingest_package
        { bin_inventory := load_and_sort_bins [binB1], conveyor_queue := [],
          loading_stack := [] }
        (pkgOfSize "A" 3))
      (pkgOfSize "B" 4))
    (pkgOfSize "C" 2)

/-- State after A was processed and persisted successfully: the queue holds
B and C and the bin occupancy is 3. -/
def stateAfterA : LogiState :=
  (process_next_package true stateABC).1

/-- Expected value of `stateAfterA`: one bin at occupancy 3, queue [B, C]. -/
def stateAfterAval : LogiState :=
  { bin_inventory := [{ bin_id := 1, capacity := 10, location_code := "L1", occupancy := 3 }],
    conveyor_queue := [pkgOfSize "B" 4, pkgOfSize "C" 2],
    loading_stack := [] }

/-- State with an empty conveyor queue, for the empty-queue claims. -/
def stateEmptyQ : LogiState :=
  { bin_inventory := seedBins, conveyor_queue := [], loading_stack := [] }

/-- State with one queued package that the seed catalog can hold. -/
def stateBusyQ : LogiState :=
  { bin_inventory := seedBins, conveyor_queue := [pkgOfSize "Q" 7], loading_stack := [] }

/-- Invariant carried through the backtracking search: the running sum is the
size of the running load, both the running load and the recorded best are
feasible selections from the sorted candidate list, and the remaining suffix
extends the running load inside the sorted candidate list. -/
def btInvariant (target_capacity : ℚ) (sorted current_load : List Package)
    (current_size : ℚ) (rem : List Package) (best : List Package × ℚ) : Prop :=
  current_size = sizeSum current_load ∧ current_size ≤ target_capacity ∧
  best.1.Sublist sorted ∧ best.2 = sizeSum best.1 ∧ best.2 ≤ target_capacity ∧
  (current_load ++ rem).Sublist sorted

/-- Postcondition of a backtracking call: the returned best is a feasible
selection, is at least as good as the incoming best, and dominates every
feasible extension of the running load by a sub-selection of the remaining
suffix. -/
def btResult (target_capacity : ℚ) (sorted : List Package) (current_size : ℚ)
    (rem : List Package) (best r : List Package × ℚ) : Prop :=
  r.1.Sublist sorted ∧ r.2 = sizeSum r.1 ∧ r.2 ≤ target_capacity ∧ best.2 ≤ r.2 ∧
  ∀ ext, ext.Sublist rem → current_size + sizeSum ext ≤ target_capacity →
    current_size + sizeSum ext ≤ r.2

/-- Setting an entry of a list to its own current value changes nothing. -/
theorem list_set_getD_self {α : Type} (l : List α) (d : α) (i : Nat)
    (h : i < l.length) : l.set i (l.getD i d) = l := by
  apply List.ext_getElem
  · simp
  · intro j hj hj2
    rcases eq_or_ne i j with rfl | hne
    · simp [List.getElem_set, List.getElem?_eq_getElem hj2]
    · rw [List.getElem_set_ne hne]

/-- Size sum of the empty selection. -/
theorem sizeSum_nil : sizeSum [] = 0 := rfl

/-- Size sum of a cons. -/
theorem sizeSum_cons (p : Package) (l : List Package) :
    sizeSum (p :: l) = p.size + sizeSum l := by
  simp [sizeSum]

/-- Size sum of an append. -/
theorem sizeSum_append (l₁ l₂ : List Package) :
    sizeSum (l₁ ++ l₂) = sizeSum l₁ + sizeSum l₂ := by
  simp [sizeSum]

/-- Size sums of nonnegatively sized packages are nonnegative. -/
theorem sizeSum_nonneg (l : List Package) (h : ∀ p ∈ l, 0 ≤ p.size) :
    0 ≤ sizeSum l := by
  refine List.sum_nonneg ?_
  intro x hx
  obtain ⟨p, hp, rfl⟩ := List.mem_map.mp hx
  exact h p hp

/-- Permuted selections have equal size sums. -/
theorem sizeSum_perm {l₁ l₂ : List Package} (h : l₁.Perm l₂) :
    sizeSum l₁ = sizeSum l₂ :=
  (h.map Package.size).sum_eq

/-- Stable insertion permutes the cons. -/
theorem insertPkgDesc_perm (p : Package) (l : List Package) :
    (insertPkgDesc p l).Perm (p :: l) := by
  induction l with
  | nil => simp [insertPkgDesc]
  | cons q rest ih =>
    by_cases h : q.size ≤ p.size
    · simp [insertPkgDesc, h]
    · simp only [insertPkgDesc, if_neg h]
      exact (ih.cons q).trans (List.Perm.swap p q rest)

/-- The descending package sort is a permutation of its input. -/
theorem sortPackagesDesc_perm (l : List Package) :
    (sortPackagesDesc l).Perm l := by
  induction l with
  | nil => simp [sortPackagesDesc]
  | cons p rest ih =>
    exact (insertPkgDesc_perm p (sortPackagesDesc rest)).trans (ih.cons p)

/-- Stable bin insertion permutes the cons. -/
theorem insertBinAsc_perm (b : StorageBin) (l : List StorageBin) :
    (insertBinAsc b l).Perm (b :: l) := by
  induction l with
  | nil => simp [insertBinAsc]
  | cons c rest ih =>
    by_cases h : b.capacity ≤ c.capacity
    · simp [insertBinAsc, h]
    · simp only [insertBinAsc, if_neg h]
      exact (ih.cons c).trans (List.Perm.swap b c rest)

/-- The ascending bin sort is a permutation of its input. -/
theorem sortBinsAsc_perm (l : List StorageBin) :
    (sortBinsAsc l).Perm l := by
  induction l with
  | nil => simp [sortBinsAsc]
  | cons b rest ih =>
    exact (insertBinAsc_perm b (sortBinsAsc rest)).trans (ih.cons b)

/-- Stable bin insertion preserves the capacity-ascending order. -/
theorem insertBinAsc_sorted (b : StorageBin) (l : List StorageBin)
    (h : l.Pairwise (fun x y => x.capacity ≤ y.capacity)) :
    (insertBinAsc b l).Pairwise (fun x y => x.capacity ≤ y.capacity) := by
  induction l with
  | nil => simp [insertBinAsc]
  | cons c rest ih =>
    rcases List.pairwise_cons.mp h with ⟨hc, hrest⟩
    by_cases hbc : b.capacity ≤ c.capacity
    · simp only [insertBinAsc, if_pos hbc]
      refine List.pairwise_cons.mpr ⟨?_, h⟩
      intro x hx
      rcases List.mem_cons.mp hx with rfl | hx
      · exact hbc
      · exact hbc.trans (hc x hx)
    · simp only [insertBinAsc, if_neg hbc]
      refine List.pairwise_cons.mpr ⟨?_, ih hrest⟩
      intro x hx
      have hx2 : x ∈ b :: rest := (insertBinAsc_perm b rest).mem_iff.mp hx
      rcases List.mem_cons.mp hx2 with rfl | hx2
      · exact le_of_lt (lt_of_not_le hbc)
      · exact hc x hx2

/-- The ascending bin sort is sorted by capacity. -/
theorem sortBinsAsc_sorted (l : List StorageBin) :
    (sortBinsAsc l).Pairwise (fun x y => x.capacity ≤ y.capacity) := by
  induction l with
  | nil => simp [sortBinsAsc]
  | cons b rest ih => exact insertBinAsc_sorted b (sortBinsAsc rest) ih

/-- When no bin has sufficient capacity, the leftmost-fit search finds none. -/
theorem leftmostFit_eq_none (package_size : ℚ) (bins : List StorageBin)
    (h : ∀ i, i < bins.length → ¬ package_size ≤ (bins.getD i dummyBin).capacity) :
    leftmostFit package_size bins = none := by
  induction bins with
  | nil => rfl
  | cons b rest ih =>
    have h0 : ¬ package_size ≤ b.capacity := by
      have := h 0 (by simp)
      simpa using this
    simp only [leftmostFit, if_neg h0]
    have : leftmostFit package_size rest = none := by
      refine ih ?_
      intro i hi
      have := h (i + 1) (by simpa using Nat.succ_lt_succ hi)
      simpa using this
    simp [this]

/-- The leftmost-fit search finds exactly the first index whose capacity
suffices. -/
theorem leftmostFit_eq_some (package_size : ℚ) (bins : List StorageBin) (b : Nat)
    (hb : b < bins.length)
    (hfit : package_size ≤ (bins.getD b dummyBin).capacity)
    (hmin : ∀ i, i < b → ¬ package_size ≤ (bins.getD i dummyBin).capacity) :
    leftmostFit package_size bins = some b := by
  induction bins generalizing b with
  | nil => simp at hb
  | cons c rest ih =>
    cases b with
    | zero =>
      have h0 : package_size ≤ c.capacity := by simpa using hfit
      simp [leftmostFit, if_pos h0]
    | succ b =>
      have h0 : ¬ package_size ≤ c.capacity := by
        have := hmin 0 (Nat.succ_pos b)
        simpa using this
      simp only [leftmostFit, if_neg h0]
      have : leftmostFit package_size rest = some b := by
        refine ih b (by simpa using Nat.lt_of_succ_lt_succ hb) (by simpa using hfit) ?_
        intro i hi
        have := hmin (i + 1) (Nat.succ_lt_succ hi)
        simpa using this
      simp [this]

/-- Any index returned by the binary-search loop is in bounds, provided the
incoming window and candidate are. -/
theorem bsLoop_some_lt (bins : List StorageBin) (package_size : ℚ) :
    ∀ fuel (low high : Int) best, 0 ≤ low → high < (bins.length : Int) →
      (∀ b, best = some b → b < bins.length) →
      ∀ r, bsLoop bins package_size fuel low high best = some r → r < bins.length := by
  intro fuel
  induction fuel with
  | zero =>
    intro low high best _ _ hbest r hr
    exact hbest r hr
  | succ fuel ih =>
    intro low high best hlow hhigh hbest r hr
    by_cases hcond : low ≤ high
    · have hmid1 : low ≤ (low + high) / 2 := by omega
      have hmid2 : (low + high) / 2 ≤ high := by omega
      simp only [bsLoop, if_pos hcond] at hr
      by_cases hcap : package_size ≤ (bins.getD ((low + high) / 2).toNat dummyBin).capacity
      · rw [if_pos hcap] at hr
        refine ih low ((low + high) / 2 - 1) (some ((low + high) / 2).toNat) hlow
          (by omega) ?_ r hr
        intro b hb
        have : b = ((low + high) / 2).toNat := by
          exact (Option.some_inj.mp hb).symm
        subst this
        omega
      · rw [if_neg hcap] at hr
        exact ih ((low + high) / 2 + 1) high best (by omega) hhigh hbest r hr
    · simp only [bsLoop, if_neg hcond] at hr
      exact hbest r hr

/-- Invariant proof of the lower-bound binary search: on a capacity-sorted
catalog the loop computes exactly the leftmost index whose capacity is at
least the requested size.  The window `[low, high]` excludes, below `low`,
only indices that cannot fit, and the remembered candidate (when present)
sits at `high + 1` and fits. -/
theorem bsLoop_eq_leftmostFit (bins : List StorageBin) (package_size : ℚ)
    (hs : bins.Pairwise (fun x y => x.capacity ≤ y.capacity)) :
    ∀ fuel (low high : Int) best,
      (high + 1 - low).toNat < fuel → 0 ≤ low → high ≤ (bins.length : Int) - 1 →
      (∀ i : Nat, (i : Int) < low → i < bins.length →
        ¬ package_size ≤ (bins.getD i dummyBin).capacity) →
      ((best = none ∧ high = (bins.length : Int) - 1) ∨
        (∃ b : Nat, best = some b ∧ (b : Int) = high + 1 ∧ b < bins.length ∧
          package_size ≤ (bins.getD b dummyBin).capacity)) →
      bsLoop bins package_size fuel low high best = leftmostFit package_size bins := by
  intro fuel
  induction fuel with
  | zero =>
    intro low high best hfuel
    omega
  | succ fuel ih =>
    intro low high best hfuel hlow0 hhigh hlow hbest
    by_cases hcond : low ≤ high
    · have hmid1 : low ≤ (low + high) / 2 := by omega
      have hmid2 : (low + high) / 2 ≤ high := by omega
      have hmidlt : ((low + high) / 2).toNat < bins.length := by omega
      simp only [bsLoop, if_pos hcond]
      by_cases hcap : package_size ≤ (bins.getD ((low + high) / 2).toNat dummyBin).capacity
      · rw [if_pos hcap]
        have hf1 : ((low + high) / 2 - 1 + 1 - low).toNat < fuel := by clear hbest; omega
        have hf2 : (low + high) / 2 - 1 ≤ (bins.length : Int) - 1 := by clear hbest; omega
        have hf3 : ((((low + high) / 2).toNat : Nat) : Int) = (low + high) / 2 - 1 + 1 := by
          clear hbest; omega
        refine ih low ((low + high) / 2 - 1) (some ((low + high) / 2).toNat)
          hf1 hlow0 hf2 hlow ?_
        right
        exact ⟨((low + high) / 2).toNat, rfl, hf3, hmidlt, hcap⟩
      · rw [if_neg hcap]
        have hf4 : (high + 1 - ((low + high) / 2 + 1)).toNat < fuel := by clear hbest; omega
        have hf5 : (0 : Int) ≤ (low + high) / 2 + 1 := by clear hbest; omega
        refine ih ((low + high) / 2 + 1) high best hf4 hf5 hhigh ?_ ?_
        · intro i hi hilen
          by_cases hiold : (i : Int) < low
          · exact hlow i hiold hilen
          · intro hfit
            have hile : i ≤ ((low + high) / 2).toNat := by omega
            rcases Nat.lt_or_ge i ((low + high) / 2).toNat with hlt | hge
            · have hpair := List.pairwise_iff_getElem.mp hs i ((low + high) / 2).toNat
                hilen hmidlt hlt
              rw [List.getD_eq_getElem bins dummyBin hilen] at hfit
              rw [List.getD_eq_getElem bins dummyBin hmidlt] at hcap
              exact hcap (le_trans hfit hpair)
            · have : i = ((low + high) / 2).toNat := by omega
              subst this
              exact hcap hfit
        · rcases hbest with ⟨rfl, hh⟩ | ⟨b, rfl, hb1, hb2, hb3⟩
          · exact Or.inl ⟨rfl, hh⟩
          · exact Or.inr ⟨b, rfl, hb1, hb2, hb3⟩
    · simp only [bsLoop, if_neg hcond]
      rcases hbest with ⟨rfl, hh⟩ | ⟨b, rfl, hb1, hb2, hb3⟩
      · refine (leftmostFit_eq_none package_size bins ?_).symm
        intro i hi
        exact hlow i (by omega) hi
      · refine (leftmostFit_eq_some package_size bins b hb2 hb3 ?_).symm
        intro i hi
        exact hlow i (by omega) (by omega)

/-- The selector never touches the inventory: the returned state component is
the input inventory on every path. -/
theorem find_best_fit_bin_fst (bins : List StorageBin) (package_size : ℚ) :
    (find_best_fit_bin bins package_size).1 = bins := by
  unfold find_best_fit_bin
  cases bsLoop bins package_size (bins.length + 1) 0 ((bins.length : Int) - 1) none with
  | none => rfl
  | some idx =>
    dsimp only
    split
    · rfl
    · rfl

/-- Soundness of a successful selection: the returned index is in bounds and
the selected bin has enough free space for the package. -/
theorem find_best_fit_bin_some (bins : List StorageBin) (package_size : ℚ) (idx : Nat)
    (h : (find_best_fit_bin bins package_size).2 = some idx) :
    idx < bins.length ∧
      package_size ≤ (bins.getD idx dummyBin).get_remaining_capacity := by
  unfold find_best_fit_bin at h
  cases hbs : bsLoop bins package_size (bins.length + 1) 0 ((bins.length : Int) - 1) none with
  | none => rw [hbs] at h; simp at h
  | some j =>
    rw [hbs] at h
    dsimp only at h
    by_cases hrem : package_size ≤ (bins.getD j dummyBin).get_remaining_capacity
    · rw [if_pos hrem] at h
      have hj : j = idx := by simpa using h
      subst hj
      refine ⟨?_, hrem⟩
      exact bsLoop_some_lt bins package_size (bins.length + 1) 0 ((bins.length : Int) - 1)
        none (le_refl 0) (by omega) (by intro b hb; simp at hb) j hbs
    · rw [if_neg hrem] at h
      simp at h

/-- Loop part of the backtracking correctness argument: assuming the
recursive calls satisfy the backtracking postcondition (`hBT`), the loop over
the remaining suffix does so as well, for any incoming best that already
dominates the running sum. -/
theorem btLoop_result (target_capacity : ℚ) (sorted : List Package)
    (hpos : ∀ p ∈ sorted, 0 < p.size) (f : Nat)
    (hBT : ∀ current_load current_size rem best, rem.length < f →
      btInvariant target_capacity sorted current_load current_size rem best →
      btResult target_capacity sorted current_size rem best
        (backtrack f target_capacity current_load current_size rem best)) :
    ∀ rem current_load current_size best, rem.length ≤ f →
      btInvariant target_capacity sorted current_load current_size rem best →
      current_size ≤ best.2 →
      btResult target_capacity sorted current_size rem best
        (btLoop (backtrack f target_capacity) target_capacity current_load current_size
          rem best) := by
  intro rem
  induction rem with
  | nil =>
    intro current_load current_size best _hlen hinv hle
    obtain ⟨_h1, _h2, h3, h4, h5, _h6⟩ := hinv
    refine ⟨h3, h4, h5, le_refl _, ?_⟩
    intro ext hext _hfeas
    have hnil : ext = [] := List.sublist_nil.mp hext
    subst hnil
    simpa [sizeSum_nil] using hle
  | cons p rest ih =>
    intro current_load current_size best hlen hinv hle
    obtain ⟨h1, h2, h3, h4, h5, h6⟩ := hinv
    have hlen2 : rest.length ≤ f := by simp at hlen; omega
    have hrest_sorted : (p :: rest).Sublist sorted :=
      (List.sublist_append_right current_load (p :: rest)).trans h6
    have hcur_rest : (current_load ++ rest).Sublist sorted :=
      ((List.sublist_cons_self p rest).append_left current_load).trans h6
    by_cases hcond : current_size + p.size ≤ target_capacity
    · have hrest_lt : rest.length < f := by simp at hlen; omega
      have hinv2 : btInvariant target_capacity sorted (current_load ++ [p])
          (current_size + p.size) rest best := by
        refine ⟨?_, hcond, h3, h4, h5, ?_⟩
        · rw [sizeSum_append, h1, sizeSum_cons, sizeSum_nil]
          ring
        · rw [List.append_assoc, List.singleton_append]
          exact h6
      obtain ⟨g1, g2, g3, g4, g5⟩ :=
        hBT (current_load ++ [p]) (current_size + p.size) rest best hrest_lt hinv2
      have hinv3 : btInvariant target_capacity sorted current_load current_size rest
          (backtrack f target_capacity (current_load ++ [p]) (current_size + p.size)
            rest best) :=
        ⟨h1, h2, g1, g2, g3, hcur_rest⟩
      have hle3 : current_size ≤
          (backtrack f target_capacity (current_load ++ [p]) (current_size + p.size)
            rest best).2 :=
        le_trans hle (le_trans g4 (le_refl _))
      obtain ⟨r1, r2, r3, r4, r5⟩ := ih current_load current_size _ hlen2 hinv3 hle3
      simp only [btLoop, if_pos hcond]
      refine ⟨r1, r2, r3, le_trans g4 r4, ?_⟩
      intro ext hext hfeas
      rw [List.sublist_cons_iff] at hext
      rcases hext with hext | ⟨ext2, rfl, hext2⟩
      · exact r5 ext hext hfeas
      · rw [sizeSum_cons] at hfeas ⊢
        have hfeas2 : current_size + p.size + sizeSum ext2 ≤ target_capacity := by
          linarith
        have := g5 ext2 hext2 hfeas2
        linarith
    · have hinv3 : btInvariant target_capacity sorted current_load current_size rest
          best := ⟨h1, h2, h3, h4, h5, hcur_rest⟩
      obtain ⟨r1, r2, r3, r4, r5⟩ := ih current_load current_size best hlen2 hinv3 hle
      simp only [btLoop, if_neg hcond]
      refine ⟨r1, r2, r3, r4, ?_⟩
      intro ext hext hfeas
      rw [List.sublist_cons_iff] at hext
      rcases hext with hext | ⟨ext2, rfl, hext2⟩
      · exact r5 ext hext hfeas
      · exfalso
        have hext2s : ext2.Sublist sorted :=
          hext2.trans ((List.sublist_cons_self p rest).trans hrest_sorted)
        have hpos2 : 0 ≤ sizeSum ext2 := by
          refine sizeSum_nonneg ext2 ?_
          intro q hq
          exact le_of_lt (hpos q (hext2s.subset hq))
        rw [sizeSum_cons] at hfeas
        exact hcond (by linarith)

/-- Correctness of the backtracking search, by induction on the fuel: from
any state satisfying the invariant, the returned best is a feasible selection
dominating both the incoming best and every feasible extension of the running
load within the remaining suffix. -/
theorem backtrack_result (target_capacity : ℚ) (sorted : List Package)
    (hpos : ∀ p ∈ sorted, 0 < p.size) :
    ∀ fuel current_load current_size rem best, rem.length < fuel →
      btInvariant target_capacity sorted current_load current_size rem best →
      btResult target_capacity sorted current_size rem best
        (backtrack fuel target_capacity current_load current_size rem best) := by
  intro fuel
  induction fuel with
  | zero =>
    intro current_load current_size rem best hlen
    omega
  | succ f ih =>
    intro current_load current_size rem best hlen hinv
    obtain ⟨h1, h2, h3, h4, h5, h6⟩ := hinv
    have hcur_sub : current_load.Sublist sorted :=
      (List.sublist_append_left current_load rem).trans h6
    by_cases hexact : current_size = target_capacity
    · simp only [backtrack, if_pos hexact]
      refine ⟨hcur_sub, h1, le_of_eq hexact, ?_, ?_⟩
      · rw [hexact]
        exact h5
      · intro ext _hext hfeas
        rw [hexact] at hfeas ⊢
        exact hfeas
    · simp only [backtrack, if_neg hexact]
      by_cases hlt : best.2 < current_size
      · rw [if_pos hlt]
        have hinv0 : btInvariant target_capacity sorted current_load current_size rem
            (current_load, current_size) :=
          ⟨h1, h2, hcur_sub, h1, h2, h6⟩
        obtain ⟨r1, r2, r3, r4, r5⟩ :=
          btLoop_result target_capacity sorted hpos f ih rem current_load current_size
            (current_load, current_size) (by omega) hinv0 (le_refl _)
        exact ⟨r1, r2, r3, le_trans (le_of_lt hlt) r4, r5⟩
      · rw [if_neg hlt]
        have hinv0 : btInvariant target_capacity sorted current_load current_size rem
            best := ⟨h1, h2, h3, h4, h5, h6⟩
        exact btLoop_result target_capacity sorted hpos f ih rem current_load
          current_size best (by omega) hinv0 (le_of_not_lt hlt)

/-- Loop part of the frame argument: the returned best load is always drawn
from the sorted candidate list, with no hypotheses on sizes. -/
theorem btLoop_sublist (target_capacity : ℚ) (sorted : List Package) (f : Nat)
    (hBT : ∀ current_load current_size rem best,
      (current_load ++ rem).Sublist sorted → best.1.Sublist sorted →
      ((backtrack f target_capacity current_load current_size rem best).1).Sublist sorted) :
    ∀ rem current_load current_size best,
      (current_load ++ rem).Sublist sorted → best.1.Sublist sorted →
      ((btLoop (backtrack f target_capacity) target_capacity current_load current_size
        rem best).1).Sublist sorted := by
  intro rem
  induction rem with
  | nil =>
    intro current_load current_size best _ hbest
    exact hbest
  | cons p rest ih =>
    intro current_load current_size best hsub hbest
    have hcur_rest : (current_load ++ rest).Sublist sorted :=
      ((List.sublist_cons_self p rest).append_left current_load).trans hsub
    by_cases hcond : current_size + p.size ≤ target_capacity
    · simp only [btLoop, if_pos hcond]
      refine ih current_load current_size _ hcur_rest ?_
      refine hBT (current_load ++ [p]) (current_size + p.size) rest best ?_ hbest
      rw [List.append_assoc, List.singleton_append]
      exact hsub
    · simp only [btLoop, if_neg hcond]
      exact ih current_load current_size best hcur_rest hbest

/-- The backtracking search only ever returns loads drawn from the sorted
candidate list, with no hypotheses on sizes. -/
theorem backtrack_sublist (target_capacity : ℚ) (sorted : List Package) :
    ∀ fuel current_load current_size rem best,
      (current_load ++ rem).Sublist sorted → best.1.Sublist sorted →
      ((backtrack fuel target_capacity current_load current_size rem best).1).Sublist
        sorted := by
  intro fuel
  induction fuel with
  | zero =>
    intro current_load current_size rem best _ hbest
    exact hbest
  | succ f ih =>
    intro current_load current_size rem best hsub hbest
    have hcur : current_load.Sublist sorted :=
      (List.sublist_append_left current_load rem).trans hsub
    by_cases hexact : current_size = target_capacity
    · simp only [backtrack, if_pos hexact]
      exact hcur
    · simp only [backtrack, if_neg hexact]
      by_cases hlt : best.2 < current_size
      · rw [if_pos hlt]
        exact btLoop_sublist target_capacity sorted f
          (fun cl cs r b hs hb => ih cl cs r b hs hb) rem current_load current_size
          (current_load, current_size) hsub hcur
      · rw [if_neg hlt]
        exact btLoop_sublist target_capacity sorted f
          (fun cl cs r b hs hb => ih cl cs r b hs hb) rem current_load current_size
          best hsub hbest

/-- C1: for positive package sizes and a positive capacity ceiling,
`find_optimal_shipment` returns a sub-multiset of the candidates whose total
size is at most the ceiling and is maximal: no sub-multiset of the candidates
respecting the ceiling has a strictly larger total size.  In particular the
result is empty whenever every single candidate exceeds the ceiling. -/
theorem find_optimal_shipment_maximal (packages : List Package) (target_capacity : ℚ)
    (hpos : ∀ p ∈ packages, 0 < p.size) (htarget : 0 < target_capacity) :
    (find_optimal_shipment packages target_capacity).Subperm packages ∧
    sizeSum (find_optimal_shipment packages target_capacity) ≤ target_capacity ∧
    (∀ load, load.Subperm packages → sizeSum load ≤ target_capacity →
      sizeSum load ≤ sizeSum (find_optimal_shipment packages target_capacity)) ∧
    ((∀ p ∈ packages, target_capacity < p.size) →
      find_optimal_shipment packages target_capacity = []) := by
  have hperm : (sortPackagesDesc packages).Perm packages := sortPackagesDesc_perm packages
  have hpos2 : ∀ p ∈ sortPackagesDesc packages, 0 < p.size :=
    fun p hp => hpos p (hperm.subset hp)
  have hlen : (sortPackagesDesc packages).length = packages.length := hperm.length_eq
  have hinv : btInvariant target_capacity (sortPackagesDesc packages) [] 0
      (sortPackagesDesc packages) ([], 0) := by
    refine ⟨by simp [sizeSum_nil], le_of_lt htarget, List.nil_sublist _,
      by simp [sizeSum_nil], le_of_lt htarget, by simp⟩
  obtain ⟨r1, r2, r3, r4, r5⟩ :=
    backtrack_result target_capacity (sortPackagesDesc packages) hpos2
      (packages.length + 1) [] 0 (sortPackagesDesc packages) ([], 0)
      (by omega) hinv
  have hF : find_optimal_shipment packages target_capacity =
      (backtrack (packages.length + 1) target_capacity [] 0
        (sortPackagesDesc packages) ([], 0)).1 := rfl
  have hsub : (find_optimal_shipment packages target_capacity).Subperm packages := by
    rw [hF]
    exact (r1.subperm).trans hperm.subperm
  have hsum : sizeSum (find_optimal_shipment packages target_capacity) ≤
      target_capacity := by
    rw [hF, ← r2]
    exact r3
  have hmax : ∀ load, load.Subperm packages → sizeSum load ≤ target_capacity →
      sizeSum load ≤ sizeSum (find_optimal_shipment packages target_capacity) := by
    intro load hload hfeas
    have hload2 : load.Subperm (sortPackagesDesc packages) :=
      hload.trans hperm.symm.subperm
    obtain ⟨l, hlperm, hlsub⟩ := hload2
    have hsums : sizeSum l = sizeSum load := sizeSum_perm hlperm
    have := r5 l hlsub (by rw [hsums]; linarith)
    rw [hF, ← r2]
    rw [hsums] at this
    linarith
  refine ⟨hsub, hsum, hmax, ?_⟩
  intro hbig
  cases hF2 : find_optimal_shipment packages target_capacity with
  | nil => rfl
  | cons q t =>
    exfalso
    have hmem : ∀ p ∈ q :: t, p ∈ packages := by
      intro p hp
      refine (hsub.subset ?_)
      rw [hF2]
      exact hp
    have hq : target_capacity < q.size := hbig q (hmem q (List.mem_cons_self q t))
    have ht : 0 ≤ sizeSum t := by
      refine sizeSum_nonneg t ?_
      intro p hp
      exact le_of_lt (hpos p (hmem p (List.mem_cons_of_mem q hp)))
    have : sizeSum (q :: t) ≤ target_capacity := by rw [← hF2]; exact hsum
    rw [sizeSum_cons] at this
    linarith

/-- C1 witness: a single candidate of size 10 against ceiling 5; every
hypothesis holds and the optimizer verdict applies (the result is the empty
load, by the fourth conjunct). -/
theorem find_optimal_shipment_maximal_witness :
    (∀ p ∈ [pkgOfSize "P1" 10], 0 < p.size) ∧ ((0 : ℚ) < 5) ∧
    ((find_optimal_shipment [pkgOfSize "P1" 10] 5).Subperm [pkgOfSize "P1" 10] ∧
      sizeSum (find_optimal_shipment [pkgOfSize "P1" 10] 5) ≤ 5 ∧
      (∀ load, load.Subperm [pkgOfSize "P1" 10] → sizeSum load ≤ 5 →
        sizeSum load ≤ sizeSum (find_optimal_shipment [pkgOfSize "P1" 10] 5)) ∧
      ((∀ p ∈ [pkgOfSize "P1" 10], (5 : ℚ) < p.size) →
        find_optimal_shipment [pkgOfSize "P1" 10] 5 = [])) := by
  have h1 : ∀ p ∈ [pkgOfSize "P1" 10], 0 < p.size := by
    intro p hp
    rw [List.mem_singleton] at hp
    subst hp
    norm_num [pkgOfSize]
  exact ⟨h1, by norm_num, find_optimal_shipment_maximal [pkgOfSize "P1" 10] 5 h1 (by norm_num)⟩

/-- C10: the optimizer never consumes its input: the embedding sorts a fresh
permuted copy of the candidate list (first conjunct), and the returned load is
a sub-multiset of the input, so it draws every element from the input, each
input package appearing at most once (second conjunct), for every input and
ceiling with no side conditions. -/
theorem find_optimal_shipment_frame (packages : List Package) (target_capacity : ℚ) :
    (sortPackagesDesc packages).Perm packages ∧
    (find_optimal_shipment packages target_capacity).Subperm packages := by
  refine ⟨sortPackagesDesc_perm packages, ?_⟩
  have hsub : ((backtrack (packages.length + 1) target_capacity [] 0
      (sortPackagesDesc packages) ([], 0)).1).Sublist (sortPackagesDesc packages) :=
    backtrack_sublist target_capacity (sortPackagesDesc packages)
      (packages.length + 1) [] 0 (sortPackagesDesc packages) ([], 0)
      (by simp) (List.nil_sublist _)
  exact (hsub.subperm).trans (sortPackagesDesc_perm packages).subperm

/-- Setting an entry to a value with the same image under `f` leaves the
mapped list unchanged (also when the index is out of range). -/
theorem list_map_set_eq {α β : Type} (l : List α) (i : Nat) (a : α) (d : α) (f : α → β)
    (h : i < l.length → f a = f (l.getD i d)) :
    (l.set i a).map f = l.map f := by
  by_cases hi : i < l.length
  · apply List.ext_getElem
    · simp
    · intro j hj hj2
      rw [List.getElem_map, List.getElem_map, List.getElem_set]
      split
      · rename_i hij
        subst hij
        rw [h hi, List.getD_eq_getElem l d hi]
      · rfl
  · rw [List.set_eq_of_length_le (by omega)]

/-- One occupancy mutation changes no identity, capacity or position. -/
theorem applyBinOp_map_binKey (bins : List StorageBin) (op : BinOp) :
    (applyBinOp bins op).map binKey = bins.map binKey := by
  cases op with
  | occupy idx amount =>
    refine list_map_set_eq bins idx _ dummyBin binKey ?_
    intro _
    unfold StorageBin.occupy_space
    split
    · rfl
    · rfl
  | free idx amount =>
    refine list_map_set_eq bins idx _ dummyBin binKey ?_
    intro _
    rfl

/-- A sequence of occupancy mutations changes no identity, capacity or
position. -/
theorem applyBinOps_map_binKey (bins : List StorageBin) (ops : List BinOp) :
    (applyBinOps bins ops).map binKey = bins.map binKey := by
  induction ops generalizing bins with
  | nil => rfl
  | cons op rest ih =>
    calc (applyBinOps (applyBinOp bins op) rest).map binKey
        = (applyBinOp bins op).map binKey := ih (applyBinOp bins op)
      _ = bins.map binKey := applyBinOp_map_binKey bins op

/-- C6: a freshly loaded catalog stays ascending by capacity, with the
original tie order, under any finite sequence of `occupy_space`/`free_space`
mutations: the (id, capacity, location) sequence is literally unchanged - so
nothing is reordered and no capacity changes - and the capacity sequence is
still sorted, with no resort ever performed. -/
theorem catalog_order_invariant (raw : List StorageBin) (ops : List BinOp) :
    (applyBinOps (load_and_sort_bins raw) ops).map binKey =
      (load_and_sort_bins raw).map binKey ∧
    (applyBinOps (load_and_sort_bins raw) ops).Pairwise
      (fun x y => x.capacity ≤ y.capacity) := by
  have hmap := applyBinOps_map_binKey (load_and_sort_bins raw) ops
  refine ⟨hmap, ?_⟩
  have hsorted : (load_and_sort_bins raw).Pairwise
      (fun x y => x.capacity ≤ y.capacity) := sortBinsAsc_sorted raw
  have hcap : (applyBinOps (load_and_sort_bins raw) ops).map (fun b => b.capacity) =
      (load_and_sort_bins raw).map (fun b => b.capacity) := by
    have h1 : ∀ l : List StorageBin,
        l.map (fun b => b.capacity) = (l.map binKey).map (fun k => k.2.1) := by
      intro l
      rw [List.map_map]
      rfl
    rw [h1, h1, hmap]
  have h2 : ((applyBinOps (load_and_sort_bins raw) ops).map
      (fun b => b.capacity)).Pairwise (fun x y => x ≤ y) := by
    rw [hcap]
    exact List.pairwise_map.mpr hsorted
  exact List.pairwise_map.mp h2

/-- C7: both mutators preserve the bin invariant 0 ≤ occupancy ≤ capacity for
nonnegative amounts; `occupy_space` refuses (unchanged bin, `False` result)
any amount beyond the remaining capacity, and `free_space` clamps at zero. -/
theorem storage_bin_invariant (b : StorageBin) (amount : ℚ)
    (h0 : 0 ≤ b.occupancy) (h1 : b.occupancy ≤ b.capacity) (ha : 0 ≤ amount) :
    (0 ≤ (b.occupy_space amount).1.occupancy ∧
      (b.occupy_space amount).1.occupancy ≤ (b.occupy_space amount).1.capacity) ∧
    (b.capacity - b.occupancy < amount → b.occupy_space amount = (b, false)) ∧
    (0 ≤ (b.free_space amount).occupancy ∧
      (b.free_space amount).occupancy ≤ (b.free_space amount).capacity) := by
  unfold StorageBin.occupy_space StorageBin.free_space StorageBin.get_remaining_capacity
  refine ⟨?_, ?_, ?_, ?_⟩
  · split
    · rename_i hcond
      constructor
      · dsimp only
        linarith
      · dsimp only
        linarith
    · exact ⟨h0, h1⟩
  · intro hover
    rw [if_neg (by linarith)]
  · dsimp only
    exact le_max_left 0 _
  · dsimp only
    refine max_le ?_ ?_
    · linarith
    · linarith

/-- C7 witness: the capacity-10 bin at occupancy 0 with amount 4 satisfies
every hypothesis, and the invariant conclusions apply to it. -/
theorem storage_bin_invariant_witness :
    ((0 : ℚ) ≤ binB1.occupancy ∧ binB1.occupancy ≤ binB1.capacity ∧ (0 : ℚ) ≤ 4) ∧
    ((0 ≤ (binB1.occupy_space 4).1.occupancy ∧
      (binB1.occupy_space 4).1.occupancy ≤ (binB1.occupy_space 4).1.capacity) ∧
    (binB1.capacity - binB1.occupancy < 4 → binB1.occupy_space 4 = (binB1, false)) ∧
    (0 ≤ (binB1.free_space 4).occupancy ∧
      (binB1.free_space 4).occupancy ≤ (binB1.free_space 4).capacity)) := by
  have h0 : (0 : ℚ) ≤ binB1.occupancy := by norm_num [binB1]
  have h1 : binB1.occupancy ≤ binB1.capacity := by norm_num [binB1]
  exact ⟨⟨h0, h1, by norm_num⟩, storage_bin_invariant binB1 4 h0 h1 (by norm_num)⟩

/-- General form of the selector refinement: on a capacity-sorted catalog the
binary-search selector coincides with the spec-side leftmost-fit selector. -/
theorem find_best_fit_bin_eq_selectorSpec (bins : List StorageBin) (package_size : ℚ)
    (hsorted : bins.Pairwise (fun x y => x.capacity ≤ y.capacity)) :
    (find_best_fit_bin bins package_size).2 = selectorSpec bins package_size := by
  unfold find_best_fit_bin selectorSpec
  rw [bsLoop_eq_leftmostFit bins package_size hsorted (bins.length + 1) 0
    ((bins.length : Int) - 1) none (by omega) (le_refl 0) (by omega)
    (fun i hi _ => absurd hi (by omega)) (Or.inl ⟨rfl, rfl⟩)]
  cases leftmostFit package_size bins with
  | none => rfl
  | some idx =>
    dsimp only
    split
    · rfl
    · rfl

/-- C2: on a capacity-ascending catalog the selector considers exactly the
leftmost unit whose capacity is at least the item size: it returns that unit
precisely when its capacity minus occupancy covers the item, and `none`
otherwise - even if a later unit of equal or larger capacity has free space -
and `none` when no capacity suffices (all of which is the content of
`selectorSpec`).  For the seed catalog with capacities 5, 10, 15, 20, 50, 100
all empty and item size 11 it picks index 2, the unit of capacity 15. -/
theorem find_best_fit_bin_leftmost :
    (∀ bins package_size, bins.Pairwise (fun x y => x.capacity ≤ y.capacity) →
      (find_best_fit_bin bins package_size).2 = selectorSpec bins package_size) ∧
    (find_best_fit_bin seedBins 11).2 = some 2 ∧
    (seedBins.getD 2 dummyBin).capacity = 15 := by
  refine ⟨find_best_fit_bin_eq_selectorSpec, ?_, by norm_num [seedBins, dummyBin]⟩
  norm_num [find_best_fit_bin, bsLoop, seedBins, dummyBin,
    StorageBin.get_remaining_capacity, List.getD]
  norm_num [Int.toNat]

/-- C2 witness: the seed catalog is capacity-sorted and the refinement
equation holds on it for item size 11. -/
theorem find_best_fit_bin_leftmost_witness :
    seedBins.Pairwise (fun x y => x.capacity ≤ y.capacity) ∧
    (find_best_fit_bin seedBins 11).2 = selectorSpec seedBins 11 := by
  have hs : seedBins.Pairwise (fun x y => x.capacity ≤ y.capacity) := by
    norm_num [seedBins, List.pairwise_cons]
  exact ⟨hs, find_best_fit_bin_leftmost.1 seedBins 11 hs⟩

/-- Freeing exactly the amount just occupied restores the original bin, as
long as the occupation succeeded and the old occupancy was nonnegative. -/
theorem occupy_then_free (b : StorageBin) (amount : ℚ) (h0 : 0 ≤ b.occupancy)
    (h : amount ≤ b.get_remaining_capacity) :
    ((b.occupy_space amount).1).free_space amount = b := by
  unfold StorageBin.occupy_space
  rw [if_pos h]
  unfold StorageBin.free_space
  dsimp only
  have harith : b.occupancy + amount - amount = b.occupancy := by ring
  rw [harith, max_eq_right h0]

/-- C3: when the queue head is matched to a bin and the persistence step then
fails, the whole operation leaves the catalog exactly as it was (the occupancy
bump is undone) and reinserts the failed package at the front of the queue,
ahead of every later arrival; the loading stack is untouched. -/
theorem process_rollback (s : LogiState) (package : Package) (rest : List Package)
    (idx : Nat) (hq : s.conveyor_queue = package :: rest)
    (hfind : (find_best_fit_bin s.bin_inventory package.size).2 = some idx)
    (hocc : ∀ b ∈ s.bin_inventory, 0 ≤ b.occupancy) :
    (process_next_package false s).1.bin_inventory = s.bin_inventory ∧
    (process_next_package false s).1.conveyor_queue = package :: rest ∧
    (process_next_package false s).1.loading_stack = s.loading_stack := by
  obtain ⟨hlt, hrem⟩ := find_best_fit_bin_some s.bin_inventory package.size idx hfind
  have hmem : s.bin_inventory.getD idx dummyBin ∈ s.bin_inventory := by
    rw [List.getD_eq_getElem s.bin_inventory dummyBin hlt]
    exact List.getElem_mem hlt
  have h0 : 0 ≤ (s.bin_inventory.getD idx dummyBin).occupancy := hocc _ hmem
  have hof := occupy_then_free (s.bin_inventory.getD idx dummyBin) package.size h0 hrem
  unfold process_next_package
  rw [hq]
  dsimp only
  rw [hfind]
  dsimp only
  rw [if_neg (by simp)]
  refine ⟨?_, rfl, rfl⟩
  dsimp only
  rw [hof, List.set_set, list_set_getD_self s.bin_inventory dummyBin idx hlt]

/-- C3 witness: after ingesting A, B, C (sizes 3, 4, 2) and processing A
successfully, the rollback theorem applies to the failed processing of B: the
queue stays [B, C] with B in front and the catalog occupancy is unchanged. -/
theorem process_rollback_witness :
    stateAfterA.conveyor_queue = pkgOfSize "B" 4 :: [pkgOfSize "C" 2] ∧
    (find_best_fit_bin stateAfterA.bin_inventory (pkgOfSize "B" 4).size).2 = some 0 ∧
    (∀ b ∈ stateAfterA.bin_inventory, 0 ≤ b.occupancy) ∧
    ((process_next_package false stateAfterA).1.bin_inventory =
        stateAfterA.bin_inventory ∧
      (process_next_package false stateAfterA).1.conveyor_queue =
        pkgOfSize "B" 4 :: [pkgOfSize "C" 2] ∧
      (process_next_package false stateAfterA).1.loading_stack =
        stateAfterA.loading_stack) := by
  have hA : stateAfterA = stateAfterAval := by
    norm_num [stateAfterA, stateAfterAval, stateABC, ingest_package, process_next_package,
      find_best_fit_bin, bsLoop, load_and_sort_bins, sortBinsAsc, insertBinAsc, binB1,
      pkgOfSize, dummyBin, StorageBin.get_remaining_capacity, StorageBin.occupy_space,
      List.getD]
  have hq : stateAfterA.conveyor_queue = pkgOfSize "B" 4 :: [pkgOfSize "C" 2] := by
    rw [hA]
    rfl
  have hfind : (find_best_fit_bin stateAfterA.bin_inventory
      (pkgOfSize "B" 4).size).2 = some 0 := by
    rw [hA]
    norm_num [find_best_fit_bin, bsLoop, stateAfterAval, pkgOfSize, dummyBin,
      StorageBin.get_remaining_capacity, List.getD]
  have hocc : ∀ b ∈ stateAfterA.bin_inventory, 0 ≤ b.occupancy := by
    rw [hA]
    intro b hb
    rw [show stateAfterAval.bin_inventory =
      [{ bin_id := 1, capacity := 10, location_code := "L1", occupancy := 3 }] from rfl,
      List.mem_singleton] at hb
    subst hb
    norm_num
  exact ⟨hq, hfind, hocc, process_rollback stateAfterA (pkgOfSize "B" 4)
    [pkgOfSize "C" 2] 0 hq hfind hocc⟩

/-- The Python `process_next_package` returns `None` on every path, so the
modelled return value is `none` whatever the state and persistence outcome. -/
theorem process_next_package_snd (persistOk : Bool) (s : LogiState) :
    (process_next_package persistOk s).2 = none := by
  unfold process_next_package
  cases s.conveyor_queue with
  | nil => rfl
  | cons package rest =>
    dsimp only
    cases (find_best_fit_bin s.bin_inventory package.size).2 with
    | none => rfl
    | some idx =>
      dsimp only
      split
      · rfl
      · rfl

/-- C8 (amended): processing on an empty queue is a no-op that returns
normally, without touching the queue, the catalog or the loading stack; the
returned value is the usual `None`. -/
theorem process_empty_queue_noop (persistOk : Bool) (s : LogiState)
    (h : s.conveyor_queue = []) :
    process_next_package persistOk s = (s, none) := by
  unfold process_next_package
  rw [h]

/-- C8 witness: the no-op theorem applies to the concrete empty-queue state. -/
theorem process_empty_queue_noop_witness :
    stateEmptyQ.conveyor_queue = [] ∧
    process_next_package true stateEmptyQ = (stateEmptyQ, none) :=
  ⟨rfl, process_empty_queue_noop true stateEmptyQ rfl⟩

/-- C8 counterexample to distinguishability: a successful assignment (which
does change the catalog) returns exactly the same value as the empty-queue
no-op, so a caller cannot tell the empty-queue outcome apart from the return
value. -/
theorem process_empty_queue_not_distinguishable :
    (process_next_package true stateBusyQ).2 = (process_next_package true stateEmptyQ).2 ∧
    (process_next_package true stateBusyQ).1.bin_inventory ≠ stateBusyQ.bin_inventory ∧
    stateEmptyQ.conveyor_queue = [] ∧ stateBusyQ.conveyor_queue ≠ [] := by
  refine ⟨?_, ?_, rfl, by simp [stateBusyQ]⟩
  · rw [process_next_package_snd, process_next_package_snd]
  · intro hcontra
    have h2 : (process_next_package true stateBusyQ).1.bin_inventory =
        seedBins.set 1 ((seedBins.getD 1 dummyBin).occupy_space 7).1 := by
      norm_num [process_next_package, stateBusyQ, find_best_fit_bin, bsLoop, seedBins,
        pkgOfSize, dummyBin, StorageBin.get_remaining_capacity, StorageBin.occupy_space,
        List.getD]
      norm_num [Int.toNat]
    rw [h2] at hcontra
    have h3 := congrArg (fun l => (l.getD 1 dummyBin).occupancy) hcontra
    norm_num [stateBusyQ, seedBins, dummyBin, StorageBin.occupy_space,
      StorageBin.get_remaining_capacity, List.getD] at h3

/-- C9: the selector is a pure query - the inventory it returns is the one it
was given, untouched (first conjunct) - and occupancy only ever grows later,
through the separate `occupy_space` call inside `process_next_package`, which
rewrites exactly the selected index and leaves every other bin unchanged
(second conjunct). -/
theorem find_best_fit_bin_pure :
    (∀ bins package_size, (find_best_fit_bin bins package_size).1 = bins) ∧
    (∀ (s : LogiState) (package : Package) (rest : List Package) (idx : Nat),
      s.conveyor_queue = package :: rest →
      (find_best_fit_bin s.bin_inventory package.size).2 = some idx →
      (process_next_package true s).1.bin_inventory =
        s.bin_inventory.set idx
          ((s.bin_inventory.getD idx dummyBin).occupy_space package.size).1 ∧
      ∀ j, j ≠ idx →
        (process_next_package true s).1.bin_inventory.getD j dummyBin =
          s.bin_inventory.getD j dummyBin) := by
  refine ⟨find_best_fit_bin_fst, ?_⟩
  intro s package rest idx hq hfind
  have hbins : (process_next_package true s).1.bin_inventory =
      s.bin_inventory.set idx
        ((s.bin_inventory.getD idx dummyBin).occupy_space package.size).1 := by
    unfold process_next_package
    rw [hq]
    dsimp only
    rw [hfind]
    rfl
  refine ⟨hbins, ?_⟩
  intro j hj
  rw [hbins]
  simp [List.getD, List.getElem?_set_ne (Ne.symm hj)]

/-- C9 witness: the selector leaves the seed catalog untouched, and the
assignment of the queued size-7 package rewrites exactly the selected bin. -/
theorem find_best_fit_bin_pure_witness :
    (find_best_fit_bin seedBins 11).1 = seedBins ∧
    stateBusyQ.conveyor_queue = pkgOfSize "Q" 7 :: [] ∧
    (find_best_fit_bin stateBusyQ.bin_inventory (pkgOfSize "Q" 7).size).2 = some 1 ∧
    ((process_next_package true stateBusyQ).1.bin_inventory =
        stateBusyQ.bin_inventory.set 1
          ((stateBusyQ.bin_inventory.getD 1 dummyBin).occupy_space
            (pkgOfSize "Q" 7).size).1 ∧
      ∀ j, j ≠ 1 →
        (process_next_package true stateBusyQ).1.bin_inventory.getD j dummyBin =
          stateBusyQ.bin_inventory.getD j dummyBin) := by
  have hq : stateBusyQ.conveyor_queue = pkgOfSize "Q" 7 :: [] := rfl
  have hfind : (find_best_fit_bin stateBusyQ.bin_inventory (pkgOfSize "Q" 7).size).2 =
      some 1 := by
    norm_num [find_best_fit_bin, bsLoop, stateBusyQ, seedBins, pkgOfSize, dummyBin,
      StorageBin.get_remaining_capacity, List.getD]
    norm_num [Int.toNat]
  exact ⟨find_best_fit_bin_pure.1 seedBins 11, hq, hfind,
    find_best_fit_bin_pure.2 stateBusyQ (pkgOfSize "Q" 7) [] 1 hq hfind⟩

/-- C5 counterexample: for the candidate sizes 3, 2, 1 and ceiling 3, an
exact-sum subset exists and the exact match fires on the second call of the
search, yet five calls are made in total: the search does not terminate as a
whole at the exact match, it keeps exploring the siblings of the ancestor
frames. -/
theorem backtracking_no_global_cut :
    (find_optimal_shipment_trace pkgs321 3).exact_hit = some 2 ∧
    (find_optimal_shipment_trace pkgs321 3).calls = 5 ∧
    [pkgOfSize "X3" 3].Sublist pkgs321 ∧ sizeSum [pkgOfSize "X3" 3] = 3 := by
  refine ⟨?_, ?_, ?_, ?_⟩
  · norm_num [find_optimal_shipment_trace, backtrackC, btLoopC, sortPackagesDesc,
      insertPkgDesc, pkgs321, pkgOfSize]
  · norm_num [find_optimal_shipment_trace, backtrackC, btLoopC, sortPackagesDesc,
      insertPkgDesc, pkgs321, pkgOfSize]
  · simp [pkgs321]
  · norm_num [sizeSum, pkgOfSize]

/-- C5 (amended): a call whose running sum equals the ceiling records its
selection as best, notes the first exact hit, and returns after exactly one
call increment - it makes no recursive calls and its result does not depend
on the remaining candidates - but only that call ends; ancestor frames keep
exploring their remaining siblings, as the counterexample shows. -/
theorem backtracking_exact_match_local (fuel : Nat) (target_capacity : ℚ)
    (current_load : List Package) (current_size : ℚ) (rem : List Package) (st : BTTrace)
    (h : current_size = target_capacity) :
    backtrackC (fuel + 1) target_capacity current_load current_size rem st =
      { best_load := current_load, best_size := current_size, calls := st.calls + 1,
        exact_hit := some (st.exact_hit.getD (st.calls + 1)) } := by
  simp [backtrackC, h]

/-- C5 witness: the local-termination equation applied to a concrete
exact-match call. -/
theorem backtracking_exact_match_local_witness :
    ((3 : ℚ) = 3) ∧
    backtrackC 1 3 [pkgOfSize "X3" 3] 3 [pkgOfSize "X2" 2]
        { best_load := [], best_size := 0, calls := 0, exact_hit := none } =
      { best_load := [pkgOfSize "X3" 3], best_size := 3, calls := 1,
        exact_hit := some 1 } := by
  refine ⟨rfl, ?_⟩
  rw [backtracking_exact_match_local 0 3 [pkgOfSize "X3" 3] 3 [pkgOfSize "X2" 2]
    { best_load := [], best_size := 0, calls := 0, exact_hit := none } rfl]
  rfl

/-- C4: evaluating `prepare_shipment` at a failing persistence shows the load
ledger keeps the entry of the failed batch (first conjunct, the concrete
failing input), because the stack is pushed before the commit: the in-memory
stack result never depends on whether the commit succeeds (second conjunct). -/
theorem prepare_shipment_ledger_before_commit :
    prepare_shipment 500 [pkgOfSize "P005" 5] false [] = (["P005"], false) ∧
    (∀ truck_capacity candidate_packages loading_stack,
      (prepare_shipment truck_capacity candidate_packages false loading_stack).1 =
        (prepare_shipment truck_capacity candidate_packages true loading_stack).1) := by
  constructor
  · norm_num [prepare_shipment, find_optimal_shipment, backtrack, btLoop,
      sortPackagesDesc, insertPkgDesc, pkgOfSize]
  · intro truck_capacity candidate_packages loading_stack
    unfold prepare_shipment
    split
    · rfl
    · dsimp only
      split
      · rfl
      · rfl

/-- Loop part of the instrumentation-faithfulness argument. -/
theorem btLoopC_consistent (f : Nat) (target_capacity : ℚ)
    (hBT : ∀ current_load current_size rem st,
      ((backtrackC f target_capacity current_load current_size rem st).best_load,
        (backtrackC f target_capacity current_load current_size rem st).best_size) =
      backtrack f target_capacity current_load current_size rem
        (st.best_load, st.best_size)) :
    ∀ rem current_load current_size st,
      ((btLoopC (backtrackC f target_capacity) target_capacity current_load current_size
          rem st).best_load,
        (btLoopC (backtrackC f target_capacity) target_capacity current_load current_size
          rem st).best_size) =
      btLoop (backtrack f target_capacity) target_capacity current_load current_size rem
        (st.best_load, st.best_size) := by
  intro rem
  induction rem with
  | nil =>
    intro current_load current_size st
    rfl
  | cons p rest ih =>
    intro current_load current_size st
    simp only [btLoopC, btLoop]
    by_cases hcond : current_size + p.size ≤ target_capacity
    · rw [if_pos hcond, if_pos hcond, ih, hBT]
    · rw [if_neg hcond, if_neg hcond, ih]

/-- The instrumented search computes exactly the best solution of the plain
search: the call counter and exact-hit marker are pure observers. -/
theorem backtrackC_consistent (target_capacity : ℚ) :
    ∀ fuel current_load current_size rem st,
      ((backtrackC fuel target_capacity current_load current_size rem st).best_load,
        (backtrackC fuel target_capacity current_load current_size rem st).best_size) =
      backtrack fuel target_capacity current_load current_size rem
        (st.best_load, st.best_size) := by
  intro fuel
  induction fuel with
  | zero =>
    intro current_load current_size rem st
    rfl
  | succ f ih =>
    intro current_load current_size rem st
    by_cases hexact : current_size = target_capacity
    · simp only [backtrackC, backtrack]
      rw [if_pos hexact, if_pos hexact]
    · simp only [backtrackC, backtrack]
      rw [if_neg hexact, if_neg hexact]
      by_cases hlt : st.best_size < current_size
      · rw [if_pos hlt, if_pos hlt]
        exact btLoopC_consistent f target_capacity ih rem current_load current_size _
      · rw [if_neg hlt, if_neg hlt]
        exact btLoopC_consistent f target_capacity ih rem current_load current_size _
